import Mathlib

/-!
Shallow embedding of the Mnemosine backend's pool/cache/handler core
(`backend/app/core/agent_pool.py`, `backend/app/core/cache_service.py`,
`backend/app/core/llm_utils.py`, `backend/app/core/agents/simple_agent.py`,
`backend/app/core/security/auth.py`, `backend/app/utils/sanitize.py`,
`backend/app/api/v1/agent.py`), together with theorems settling the frozen
claims about it.

Python `dict`s are embedded as insertion-ordered association lists over
`String` keys (`Dict` below); machine floats used as timestamps are embedded
as `Int` instants (only their ordering matters to the embedded code), and
`time.time()` / `asyncio.get_event_loop().time()` reads are passed in as an
explicit `now : Int` argument.  Fallible Python code (raises) is embedded
with `Except String`, pairing the outcome with the post state so that the
state at the moment of a raise is visible.
-/

namespace Mnemosine

/-! ## Python dict model

A Python `dict` with string keys: an association list in insertion order.
Assignment to a fresh key appends, assignment to a present key updates in
place, deletion removes the key, iteration follows list order.  Dicts built
from `[]` by these operations have pairwise distinct keys. -/

abbrev Dict (α : Type) := List (String × α)

/-- Embeds `d[k]` as used in a boolean/`in` context: the value at `k`, if present. -/
def dictGet {α : Type} : Dict α → String → Option α
  | [], _ => none
  | (k', v) :: rest, k => if k' = k then some v else dictGet rest k

/-- Embeds `d[k] = v`: update in place if present, else append. -/
def dictSet {α : Type} : Dict α → String → α → Dict α
  | [], k, v => [(k, v)]
  | (k', v') :: rest, k, v =>
      if k' = k then (k, v) :: rest else (k', v') :: dictSet rest k v

/-- Embeds `k in d`. -/
def dictContains {α : Type} (d : Dict α) (k : String) : Bool :=
  (dictGet d k).isSome

/-- Embeds `del d[k]` on a dict whose keys are distinct (all matches removed). -/
def dictDel {α : Type} (d : Dict α) (k : String) : Dict α :=
  d.filter (fun kv => kv.1 ≠ k)

/-- Embeds `d.keys()` in iteration order. -/
def dictKeys {α : Type} (d : Dict α) : List String :=
  d.map Prod.fst

/-- Embeds `del d[k]` exactly: a `KeyError` is raised when `k` is absent. -/
def pyDel {α : Type} (d : Dict α) (k : String) : Except String (Dict α) :=
  match dictGet d k with
  | some _ => .ok (dictDel d k)
  | none => .error ("KeyError")

theorem dictGet_set_self {α : Type} (d : Dict α) (k : String) (v : α) :
    dictGet (dictSet d k v) k = some v := by
  induction d with
  | nil => simp [dictSet, dictGet]
  | cons kv rest ih =>
      obtain ⟨k', v'⟩ := kv
      by_cases h : k' = k <;> simp [dictSet, dictGet, h, ih]

theorem dictGet_set_ne {α : Type} (d : Dict α) (k k' : String) (v : α)
    (h : k' ≠ k) : dictGet (dictSet d k v) k' = dictGet d k' := by
  have hne : ¬ k = k' := fun h' => h h'.symm
  induction d with
  | nil => simp [dictSet, dictGet, hne]
  | cons kv rest ih =>
      obtain ⟨k₀, v₀⟩ := kv
      by_cases h₀ : k₀ = k
      · subst h₀
        simp [dictSet, dictGet, hne]
      · by_cases h₁ : k₀ = k' <;> simp [dictSet, dictGet, h₀, h₁, h, ih]

theorem dictGet_isSome_iff_mem_keys {α : Type} (d : Dict α) (k : String) :
    (dictGet d k).isSome = true ↔ k ∈ dictKeys d := by
  induction d with
  | nil => simp [dictGet, dictKeys]
  | cons kv rest ih =>
      obtain ⟨k', v'⟩ := kv
      by_cases h : k' = k
      · subst h; simp [dictGet, dictKeys]
      · have h' : ¬ k = k' := fun hEq => h hEq.symm
        simp [dictGet, dictKeys, h, h', ih]

theorem dictContains_iff_mem_keys {α : Type} (d : Dict α) (k : String) :
    dictContains d k = true ↔ k ∈ dictKeys d := by
  simpa [dictContains] using dictGet_isSome_iff_mem_keys d k

theorem dictGet_del_self {α : Type} (d : Dict α) (k : String) :
    dictGet (dictDel d k) k = none := by
  induction d with
  | nil => simp [dictDel, dictGet]
  | cons kv rest ih =>
      obtain ⟨k', v'⟩ := kv
      by_cases h : k' = k <;>
        simp_all [dictDel, dictGet, List.filter_cons]

theorem dictGet_del_ne {α : Type} (d : Dict α) (k k' : String)
    (h : k' ≠ k) : dictGet (dictDel d k) k' = dictGet d k' := by
  induction d with
  | nil => simp [dictDel, dictGet]
  | cons kv rest ih =>
      obtain ⟨k₀, v₀⟩ := kv
      by_cases h₀ : k₀ = k
      · subst h₀
        have h' : ¬ k₀ = k' := fun hEq => h hEq.symm
        simp_all [dictDel, dictGet, List.filter_cons]
      · by_cases h₁ : k₀ = k' <;> simp_all [dictDel, dictGet, List.filter_cons]

theorem dictKeys_del {α : Type} (d : Dict α) (k : String) :
    dictKeys (dictDel d k) = (dictKeys d).filter (fun x => x ≠ k) := by
  induction d with
  | nil => simp [dictDel, dictKeys]
  | cons kv rest ih =>
      obtain ⟨k₀, v₀⟩ := kv
      by_cases h : k₀ = k <;> simp_all [dictDel, dictKeys, List.filter_cons]

theorem mem_dictKeys_del {α : Type} (d : Dict α) (k k' : String) :
    k' ∈ dictKeys (dictDel d k) ↔ k' ∈ dictKeys d ∧ k' ≠ k := by
  simp [dictKeys_del, List.mem_filter]

theorem nodup_dictKeys_del {α : Type} (d : Dict α) (k : String)
    (h : (dictKeys d).Nodup) : (dictKeys (dictDel d k)).Nodup := by
  rw [dictKeys_del]
  exact h.filter _

theorem dictKeys_set_of_contains {α : Type} (d : Dict α) (k : String) (v : α)
    (h : (dictGet d k).isSome = true) :
    dictKeys (dictSet d k v) = dictKeys d := by
  induction d with
  | nil => simp [dictGet] at h
  | cons kv rest ih =>
      obtain ⟨k₀, v₀⟩ := kv
      by_cases h₀ : k₀ = k
      · subst h₀; simp [dictSet, dictKeys]
      · simp only [dictGet, if_neg h₀] at h
        simp only [dictSet, if_neg h₀, dictKeys, List.map_cons, List.cons.injEq,
          true_and]
        exact ih h

theorem dictKeys_set_of_not_contains {α : Type} (d : Dict α) (k : String) (v : α)
    (h : (dictGet d k).isSome = false) :
    dictKeys (dictSet d k v) = dictKeys d ++ [k] := by
  induction d with
  | nil => simp [dictSet, dictKeys]
  | cons kv rest ih =>
      obtain ⟨k₀, v₀⟩ := kv
      by_cases h₀ : k₀ = k
      · subst h₀; simp [dictGet] at h
      · simp only [dictGet, if_neg h₀] at h
        simp only [dictSet, if_neg h₀, dictKeys, List.map_cons, List.cons_append,
          List.cons.injEq, true_and]
        exact ih h

theorem mem_dictKeys_set {α : Type} (d : Dict α) (k k' : String) (v : α) :
    k' ∈ dictKeys (dictSet d k v) ↔ k' ∈ dictKeys d ∨ k' = k := by
  rcases h : (dictGet d k).isSome with _ | _
  · simp [dictKeys_set_of_not_contains d k v h]
  · rw [dictKeys_set_of_contains d k v h]
    have hk : k ∈ dictKeys d := (dictGet_isSome_iff_mem_keys d k).mp h
    constructor
    · exact Or.inl
    · rintro (h' | rfl)
      · exact h'
      · exact hk

theorem nodup_dictKeys_set {α : Type} (d : Dict α) (k : String) (v : α)
    (h : (dictKeys d).Nodup) : (dictKeys (dictSet d k v)).Nodup := by
  rcases hc : (dictGet d k).isSome with _ | _
  · rw [dictKeys_set_of_not_contains d k v hc]
    have : k ∉ dictKeys d := by
      intro hm
      rw [(dictGet_isSome_iff_mem_keys d k).mpr hm] at hc
      cases hc
    simp [List.nodup_append, h, this]
  · rw [dictKeys_set_of_contains d k v hc]; exact h

theorem length_dictKeys {α : Type} (d : Dict α) :
    (dictKeys d).length = d.length := by
  simp [dictKeys]

theorem length_dictSet_of_contains {α : Type} (d : Dict α) (k : String) (v : α)
    (h : (dictGet d k).isSome = true) :
    (dictSet d k v).length = d.length := by
  have h₂ := congrArg List.length (dictKeys_set_of_contains d k v h)
  rwa [length_dictKeys, length_dictKeys] at h₂

theorem length_dictSet_of_not_contains {α : Type} (d : Dict α) (k : String) (v : α)
    (h : (dictGet d k).isSome = false) :
    (dictSet d k v).length = d.length + 1 := by
  have h₂ := congrArg List.length (dictKeys_set_of_not_contains d k v h)
  rw [length_dictKeys] at h₂
  simpa [length_dictKeys] using h₂

theorem length_dictDel_of_contains {α : Type} (d : Dict α) (k : String)
    (hnd : (dictKeys d).Nodup) (h : (dictGet d k).isSome = true) :
    (dictDel d k).length + 1 = d.length := by
  induction d with
  | nil => simp [dictGet] at h
  | cons kv rest ih =>
      obtain ⟨k₀, v₀⟩ := kv
      simp only [dictKeys, List.map_cons, List.nodup_cons] at hnd
      by_cases h₀ : k₀ = k
      · subst h₀
        have hrest : dictDel ((k₀, v₀) :: rest) k₀ = rest := by
          have hall : ∀ kv ∈ rest, (fun kv : String × α => decide (kv.1 ≠ k₀)) kv = true := by
            intro kv hkv
            simp only [decide_eq_true_eq]
            intro hEq
            exact hnd.1 (hEq ▸ List.mem_map_of_mem Prod.fst hkv)
          simp only [dictDel, List.filter_cons, decide_eq_true_eq]
          rw [if_neg (by simp)]
          exact List.filter_eq_self.mpr hall
        simp [hrest]
      · simp only [dictGet, if_neg h₀] at h
        have hlen := ih hnd.2 h
        have hcons : dictDel ((k₀, v₀) :: rest) k = (k₀, v₀) :: dictDel rest k := by
          simp only [dictDel, List.filter_cons]
          rw [if_pos (by simp [h₀])]
        rw [hcons]
        simp only [List.length_cons]
        omega

/-! ## Response cache (`backend/app/core/cache_service.py`)

`MemoryCache` stores, per key, a dict `{"value": ..., "expires": ...}`;
here that inner dict is the structure `CacheItem`.  The event-loop clock is
the explicit `now : Int` argument. -/

structure CacheItem where
  value : String
  expires : Int
deriving DecidableEq, Repr

structure MemoryCache where
  cache : Dict CacheItem
  default_ttl : Int
deriving DecidableEq, Repr

namespace MemoryCache

/-- Embeds `ttl = ttl or self.default_ttl` (Python truthiness: `None` and
`0` both fall back to the default TTL). -/
def effectiveTtl (c : MemoryCache) (ttl : Option Int) : Int :=
  match ttl with
  | some t => if t = 0 then c.default_ttl else t
  | none => c.default_ttl

/-- Embeds `MemoryCache.get`: value if present and unexpired; on an expired
hit the entry is deleted; returns the value (if any) and the post state. -/
def get (c : MemoryCache) (now : Int) (key : String) : Option String × MemoryCache :=
  match dictGet c.cache key with
  | some item =>
      if item.expires > now then (some item.value, c)
      else (none, { c with cache := dictDel c.cache key })
  | none => (none, c)

/-- Embeds `MemoryCache.set`: absolute expiry `now + ttl`, insert/overwrite. -/
def set (c : MemoryCache) (now : Int) (key : String) (value : String)
    (ttl : Option Int) : MemoryCache :=
  let expires := now + c.effectiveTtl ttl
  { c with cache := dictSet c.cache key { value := value, expires := expires } }

/-- Embeds `MemoryCache.clear`. -/
def clear (c : MemoryCache) : MemoryCache :=
  { c with cache := [] }

/-- Embeds `MemoryCache.cleanup_expired`: collect the keys with
`expires <= current_time`, then delete each. -/
def cleanup_expired (c : MemoryCache) (now : Int) : MemoryCache :=
  let expired_keys :=
    (c.cache.filter (fun kv => decide (kv.2.expires ≤ now))).map Prod.fst
  { c with cache := expired_keys.foldl (fun d k => dictDel d k) c.cache }

end MemoryCache

/-- `CacheService` wraps the memory cache with an enabled flag
(`disable_cache` / `enable_cache`). -/
structure CacheService where
  cache : MemoryCache
  enabled : Bool
deriving DecidableEq, Repr

namespace CacheService

/-- Embeds `CacheService._generate_cache_key`.  `json.dumps(data, sort_keys=True)`
followed by `hashlib.md5(...).hexdigest()` are external-library calls; they are
abstracted into the `digest` parameter, which maps the `prompt` and `model`
fields of the data dict to the hex digest string.  Every theorem below is
universally quantified over `digest`. -/
def generateCacheKey (digest : String → String → String) (pre : String)
    (promptText modelName : String) : String :=
  pre ++ ":" ++ digest promptText modelName

/-- Embeds `CacheService.get_prompt_response` (returns the cached value and the
post state; short-circuits to `None` when the service is disabled). -/
def get_prompt_response (digest : String → String → String) (s : CacheService)
    (now : Int) (promptText modelName : String) : Option String × CacheService :=
  if s.enabled = false then (none, s)
  else
    let cache_key := generateCacheKey digest ("prompt") promptText modelName
    let r := s.cache.get now cache_key
    (r.1, { s with cache := r.2 })

/-- Embeds `CacheService.cache_prompt_response` (no-op when disabled). -/
def cache_prompt_response (digest : String → String → String) (s : CacheService)
    (now : Int) (promptText modelName response : String) (ttl : Option Int) :
    CacheService :=
  if s.enabled = false then s
  else
    let cache_key := generateCacheKey digest ("prompt") promptText modelName
    { s with cache := s.cache.set now cache_key response ttl }

/-- Embeds `CacheService.get_conversation_response`; `conversation_data` is
abstracted to the string `json.dumps` would serialize it to, consumed by the
`digestConv` parameter (the analogue of `digest` for the conversation key). -/
def get_conversation_response (digestConv : String → String) (s : CacheService)
    (now : Int) (conversationData : String) : Option String × CacheService :=
  if s.enabled = false then (none, s)
  else
    let cache_key := ("conversation") ++ ":" ++ digestConv conversationData
    let r := s.cache.get now cache_key
    (r.1, { s with cache := r.2 })

/-- Embeds `CacheService.clear_cache` (applies regardless of `enabled`). -/
def clear_cache (s : CacheService) : CacheService :=
  { s with cache := s.cache.clear }

/-- Embeds `CacheService.cleanup_expired_entries` (applies regardless of
`enabled`). -/
def cleanup_expired_entries (s : CacheService) (now : Int) : CacheService :=
  { s with cache := s.cache.cleanup_expired now }

end CacheService

/-! Supporting lemmas for the cleanup sweep. -/

theorem dictGet_foldl_del {α : Type} (ks : List String) (d : Dict α) (k : String) :
    dictGet (ks.foldl (fun d k => dictDel d k) d) k =
      if k ∈ ks then none else dictGet d k := by
  induction ks generalizing d with
  | nil => simp
  | cons k₀ rest ih =>
      simp only [List.foldl_cons, ih, List.mem_cons]
      by_cases h : k = k₀
      · subst h
        simp [dictGet_del_self]
      · by_cases h' : k ∈ rest <;> simp [h, h', dictGet_del_ne _ _ _ h]

theorem mem_keys_filter_iff {α : Type} (d : Dict α) (p : String × α → Bool)
    (k : String) (hnd : (dictKeys d).Nodup) :
    k ∈ dictKeys (d.filter p) ↔ ∃ item, dictGet d k = some item ∧ p (k, item) = true := by
  induction d with
  | nil => simp [dictKeys, dictGet]
  | cons kv rest ih =>
      obtain ⟨k₀, v₀⟩ := kv
      simp only [dictKeys, List.map_cons, List.nodup_cons] at hnd
      by_cases h : k₀ = k
      · subst h
        rcases hp : p (k₀, v₀) with _ | _
        · have hfc : List.filter p ((k₀, v₀) :: rest) = List.filter p rest := by
            simp [List.filter_cons, hp]
          rw [hfc, ih hnd.2]
          simp only [dictGet, if_pos rfl]
          constructor
          · rintro ⟨item, hitem, hpitem⟩
            exact absurd ((dictGet_isSome_iff_mem_keys rest k₀).mp (by simp [hitem]))
              hnd.1
          · rintro ⟨item, hitem, hpitem⟩
            cases hitem
            simp [hp] at hpitem
        · have hfc : List.filter p ((k₀, v₀) :: rest) = (k₀, v₀) :: List.filter p rest := by
            simp [List.filter_cons, hp]
          rw [hfc]
          simp [dictKeys, dictGet, hp]
      · have h' : ¬ k = k₀ := fun hEq => h hEq.symm
        rcases hp : p (k₀, v₀) with _ | _
        · have hfc : List.filter p ((k₀, v₀) :: rest) = List.filter p rest := by
            simp [List.filter_cons, hp]
          rw [hfc, ih hnd.2]
          simp [dictGet, h]
        · have hfc : List.filter p ((k₀, v₀) :: rest) = (k₀, v₀) :: List.filter p rest := by
            simp [List.filter_cons, hp]
          rw [hfc]
          simp only [dictKeys, List.map_cons, List.mem_cons]
          rw [show (List.map Prod.fst (List.filter p rest) : List String) =
            dictKeys (rest.filter p) from rfl]
          rw [ih hnd.2]
          simp [dictGet, h, h']

/-- On a nodup-keyed cache, the sweep removes exactly the entries with
`expires ≤ now`. -/
theorem cleanup_expired_get (c : MemoryCache) (now : Int) (k : String)
    (hnd : (dictKeys c.cache).Nodup) :
    dictGet (c.cleanup_expired now).cache k =
      match dictGet c.cache k with
      | some item => if item.expires ≤ now then none else some item
      | none => none := by
  simp only [MemoryCache.cleanup_expired, dictGet_foldl_del]
  rw [show (List.map Prod.fst (c.cache.filter fun kv => decide (kv.2.expires ≤ now)) :
    List String) = dictKeys (c.cache.filter fun kv => decide (kv.2.expires ≤ now)) from rfl]
  by_cases hm : k ∈ dictKeys (c.cache.filter fun kv => decide (kv.2.expires ≤ now))
  · obtain ⟨item, hitem, hp⟩ := (mem_keys_filter_iff _ _ _ hnd).mp hm
    simp only [decide_eq_true_eq] at hp
    simp [hm, hitem, hp]
  · simp only [hm, if_neg (by exact hm)]
    rcases hget : dictGet c.cache k with _ | item
    · simp [hget]
    · have : ¬ item.expires ≤ now := by
        intro hle
        exact hm ((mem_keys_filter_iff _ _ _ hnd).mpr ⟨item, hget, by simp [hle]⟩)
      simp [hget, this]

/-! ## Settings (`backend/app/config/settings.py`)

Only the fields read by the embedded code are carried.  Optional API keys are
`Option String`; Python truthiness (`not settings.X_API_KEY`) treats both
`None` and the empty string as missing. -/

structure Settings where
  DEFAULT_MODEL : String
  DEFAULT_PROVIDER : String
  OPENAI_API_KEY : Option String
  ANTHROPIC_API_KEY : Option String
  GEMINI_API_KEY : Option String
  SECRET_KEY : String
  ALGORITHM : String
  ACCESS_TOKEN_EXPIRE_MINUTES : Int
deriving DecidableEq, Repr

/-- Python truthiness of an `Optional[str]`: `None` and `""` are falsy. -/
def pyTruthy : Option String → Bool
  | none => false
  | some s => s ≠ ""

/-- Embeds Python `c in s` for a single character (via the character list,
which the kernel can evaluate). -/
def pyContains (s : String) (c : Char) : Bool :=
  s.data.contains c

/-- Embeds Python `s.startswith(pre)` (via the character lists). -/
def pyStartsWith (s pre : String) : Bool :=
  pre.data.isPrefixOf s.data

/-! ## LLM utilities (`backend/app/core/llm_utils.py`) -/

/-- Embeds `convert_model_name`. -/
def convert_model_name (st : Settings) (model : String) : String :=
  if pyContains model ':' then model
  else if pyStartsWith model ("gemini") then ("google-gla:") ++ model
  else if pyStartsWith model ("gpt") || pyStartsWith model ("o1") then ("openai:") ++ model
  else if pyStartsWith model ("claude") then ("anthropic:") ++ model
  else if st.DEFAULT_PROVIDER = "gemini" then ("google-gla:") ++ model
  else if st.DEFAULT_PROVIDER = "openai" then ("openai:") ++ model
  else ("openai:") ++ model

/-- Embeds `validate_api_key`: `ValueError` when the provider's key is
missing (falsy) or the model has an unsupported format. -/
def validate_api_key (st : Settings) (model : String) : Except String Unit :=
  if pyStartsWith model ("google-gla:") then
    if pyTruthy st.GEMINI_API_KEY = false then
      .error ("Gemini API key not configured")
    else .ok ()
  else if pyStartsWith model ("openai:") then
    if pyTruthy st.OPENAI_API_KEY = false then
      .error ("OpenAI API key not configured")
    else .ok ()
  else if pyStartsWith model ("anthropic:") then
    if pyTruthy st.ANTHROPIC_API_KEY = false then
      .error ("Anthropic API key not configured")
    else .ok ()
  else .error ("Unsupported model format: " ++ model)

/-! ## Agent pool (`backend/app/core/agent_pool.py`) -/

/-- The `pydantic_ai.Agent` handle is external; the pool only constructs it
from the model name and the system prompt and stores it, so it is embedded as
that pair. -/
structure Agent where
  model_name : String
  system_prompt : String
deriving DecidableEq, Repr

/-- Modelled from the spec: `get_system_prompt` (in
`backend/app/core/prompts/__init__.py`) renders a Jinja2 template from disk,
with the module's `DEFAULT_SYSTEM_PROMPT` constant as fallback; file access
and template rendering are external, and no claim depends on the text, so it
is embedded as the fallback constant. -/
def get_system_prompt : String :=
  "\nYou are Mnemosine, an AI assistant designed to help users with various tasks.\n\nHow can I assist you today?\n"

structure AgentPool where
  pool_size : Nat
  agents : Dict Agent
  agent_usage : Dict Int
  agent_last_used : Dict Int
deriving DecidableEq, Repr

/-- Embeds `AgentPool.__init__` (empty maps). -/
def initPool (n : Nat) : AgentPool :=
  { pool_size := n, agents := [], agent_usage := [], agent_last_used := [] }

/-- Auxiliary scan for `pyMinKey` (keeps the earlier key on ties, as Python
`min` does). -/
def minKeyAux : Dict Int → String → Int → String
  | [], k, _ => k
  | (k', v') :: rest, k, v =>
      if v' < v then minKeyAux rest k' v' else minKeyAux rest k v

/-- Embeds `min(d.keys(), key=lambda k: d[k])`: first key with minimal value
in iteration order; `ValueError` on an empty dict. -/
def pyMinKey (d : Dict Int) : Except String String :=
  match d with
  | [] => .error ("ValueError: min() arg is an empty sequence")
  | (k, v) :: rest => .ok (minKeyAux rest k v)

namespace AgentPool

/-- Embeds the model-name resolution at the top of `get_agent`:
`convert_model_name(model) if model else settings.DEFAULT_MODEL`, then a
second conversion when the result has no `":"`. -/
def resolveModelName (st : Settings) (model : Option String) : String :=
  let m0 := if pyTruthy model then convert_model_name st (model.getD ("")) else st.DEFAULT_MODEL
  if pyContains m0 ':' then m0 else convert_model_name st m0

/-- The hit branch of `get_agent` (`agent_key in self.agents`):
`self.agent_usage[agent_key] += 1` (a `KeyError` if the usage map is out of
sync), then the timestamp update, then `return self.agents[agent_key]`. -/
def getAgentHit (p : AgentPool) (agent_key : String) (now : Int) :
    Except String Agent × AgentPool :=
  match dictGet p.agent_usage agent_key with
  | none => (.error ("KeyError"), p)
  | some u =>
      let p' := { p with
        agent_usage := dictSet p.agent_usage agent_key (u + 1),
        agent_last_used := dictSet p.agent_last_used agent_key now }
      match dictGet p'.agents agent_key with
      | some a => (.ok a, p')
      | none => (.error ("KeyError"), p')

/-- The create branch of `get_agent` (`len(self.agents) < self.pool_size`). -/
def getAgentNew (p : AgentPool) (agent_key model_name : String) (now : Int) :
    Except String Agent × AgentPool :=
  let agent : Agent := { model_name := model_name, system_prompt := get_system_prompt }
  (.ok agent, { p with
    agents := dictSet p.agents agent_key agent,
    agent_usage := dictSet p.agent_usage agent_key 1,
    agent_last_used := dictSet p.agent_last_used agent_key now })

/-- The eviction branch of `get_agent` (pool full): LRU scan, three `del`s,
then insertion of the fresh handle.  Each `del` may raise `KeyError` on an
out-of-sync pool; the state reached before the raise is kept, as in Python. -/
def getAgentEvict (p : AgentPool) (agent_key model_name : String) (now : Int) :
    Except String Agent × AgentPool :=
  match pyMinKey p.agent_last_used with
  | .error e => (.error e, p)
  | .ok lru_key =>
      match pyDel p.agents lru_key with
      | .error e => (.error e, p)
      | .ok agents' =>
          match pyDel p.agent_usage lru_key with
          | .error e => (.error e, { p with agents := agents' })
          | .ok usage' =>
              match pyDel p.agent_last_used lru_key with
              | .error e => (.error e, { p with agents := agents', agent_usage := usage' })
              | .ok last' =>
                  let agent : Agent :=
                    { model_name := model_name, system_prompt := get_system_prompt }
                  (.ok agent, { p with
                    agents := dictSet agents' agent_key agent,
                    agent_usage := dictSet usage' agent_key 1,
                    agent_last_used := dictSet last' agent_key now })

/-- The `agent_key = f"agent_{model_name}"` computed inside `get_agent`. -/
def agentKey (st : Settings) (model : Option String) : String :=
  ("agent_") ++ resolveModelName st model

/-- Embeds `AgentPool.get_agent`: resolve and validate the model, then hit /
create / evict under the lock.  Returns the outcome together with the post
state (unchanged whenever the raise happens before any mutation). -/
def get_agent (st : Settings) (p : AgentPool) (now : Int) (model : Option String) :
    Except String Agent × AgentPool :=
  match validate_api_key st (resolveModelName st model) with
  | .error e => (.error e, p)
  | .ok _ =>
      if dictContains p.agents (agentKey st model) then
        getAgentHit p (agentKey st model) now
      else if p.agents.length < p.pool_size then
        getAgentNew p (agentKey st model) (resolveModelName st model) now
      else getAgentEvict p (agentKey st model) (resolveModelName st model) now

/-- One step of the `cleanup_unused_agents` loop: the three `del`s for one
expired key, keeping the partially mutated state if one raises. -/
def cleanupAux : AgentPool → List String → Except String Unit × AgentPool
  | p, [] => (.ok (), p)
  | p, k :: rest =>
      match pyDel p.agents k with
      | .error e => (.error e, p)
      | .ok agents' =>
          match pyDel p.agent_usage k with
          | .error e => (.error e, { p with agents := agents' })
          | .ok usage' =>
              match pyDel p.agent_last_used k with
              | .error e => (.error e, { p with agents := agents', agent_usage := usage' })
              | .ok last' =>
                  cleanupAux
                    { p with agents := agents', agent_usage := usage', agent_last_used := last' }
                    rest

/-- Embeds `AgentPool.cleanup_unused_agents`: collect keys idle longer than
`max_idle_time`, then delete each from the three maps. -/
def cleanup_unused_agents (p : AgentPool) (now : Int) (max_idle_time : Int) :
    Except String Unit × AgentPool :=
  let expired_keys :=
    (p.agent_last_used.filter (fun kv => decide (now - kv.2 > max_idle_time))).map Prod.fst
  cleanupAux p expired_keys

end AgentPool

/-- A call against the pool: `get_agent` (with the settings and clock it
observes) or `cleanup_unused_agents`. -/
inductive PoolOp where
  | get (st : Settings) (now : Int) (model : Option String)
  | cleanup (now : Int) (max_idle_time : Int)

/-- The pool state after a call, whether it returned or raised. -/
def PoolOp.apply (p : AgentPool) : PoolOp → AgentPool
  | .get st now model => (AgentPool.get_agent st p now model).2
  | .cleanup now m => (p.cleanup_unused_agents now m).2

/-- The pool state after a sequence of calls starting from an empty pool of
capacity `n`. -/
def runPoolOps (n : Nat) (ops : List PoolOp) : AgentPool :=
  ops.foldl PoolOp.apply (initPool n)

/-! ## Pool well-formedness

The inductive invariant of the pool: the three per-agent maps have pairwise
distinct keys, agree on their key sets, and the agents map never exceeds the
configured capacity. -/

structure AgentPool.WF (p : AgentPool) : Prop where
  nodupAgents : (dictKeys p.agents).Nodup
  nodupUsage : (dictKeys p.agent_usage).Nodup
  nodupLast : (dictKeys p.agent_last_used).Nodup
  usageKeys : ∀ k, k ∈ dictKeys p.agents ↔ k ∈ dictKeys p.agent_usage
  lastKeys : ∀ k, k ∈ dictKeys p.agents ↔ k ∈ dictKeys p.agent_last_used
  sizeLe : p.agents.length ≤ p.pool_size

theorem initPool_wf (n : Nat) : (initPool n).WF := by
  constructor <;> simp [initPool, dictKeys]

theorem dictGet_isSome_of_mem {α : Type} (d : Dict α) (k : String) (v : α)
    (h : (k, v) ∈ d) : (dictGet d k).isSome = true := by
  induction d with
  | nil => cases h
  | cons kv rest ih =>
      obtain ⟨k₀, v₀⟩ := kv
      by_cases hk : k₀ = k
      · simp [dictGet, hk]
      · rcases List.mem_cons.mp h with hEq | hmem
        · cases hEq
          exact absurd rfl hk
        · simpa [dictGet, hk] using ih hmem

theorem minKeyAux_spec (rest : Dict Int) (k : String) (v : Int) :
    ∃ w, ((minKeyAux rest k v = k ∧ w = v) ∨ (minKeyAux rest k v, w) ∈ rest) ∧
      w ≤ v ∧ ∀ kv ∈ rest, w ≤ kv.2 := by
  induction rest generalizing k v with
  | nil => exact ⟨v, Or.inl ⟨rfl, rfl⟩, le_refl v, by simp⟩
  | cons kv₀ rest ih =>
      obtain ⟨k', v'⟩ := kv₀
      by_cases hlt : v' < v
      · obtain ⟨w, hmem, hle, hall⟩ := ih k' v'
        refine ⟨w, ?_, le_of_lt (lt_of_le_of_lt hle hlt), ?_⟩
        · rcases hmem with ⟨hEq, hw⟩ | hmem
          · exact Or.inr (by simp [minKeyAux, hlt, hEq, hw])
          · exact Or.inr (by simp [minKeyAux, hlt]; right; exact hmem)
        · intro kv hkv
          rcases List.mem_cons.mp hkv with hEq | hmem'
          · cases hEq; exact hle
          · exact hall kv hmem'
      · obtain ⟨w, hmem, hle, hall⟩ := ih k v
        refine ⟨w, ?_, hle, ?_⟩
        · rcases hmem with ⟨hEq, hw⟩ | hmem
          · exact Or.inl (by simp [minKeyAux, hlt, hEq, hw])
          · exact Or.inr (by simp [minKeyAux, hlt]; right; exact hmem)
        · intro kv hkv
          rcases List.mem_cons.mp hkv with hEq | hmem'
          · cases hEq
            exact le_trans hle (not_lt.mp hlt)
          · exact hall kv hmem'

theorem pyMinKey_spec (d : Dict Int) (lru : String)
    (h : pyMinKey d = .ok lru) :
    ∃ w, (lru, w) ∈ d ∧ ∀ kv ∈ d, w ≤ kv.2 := by
  match d, h with
  | (k₀, v₀) :: rest, h =>
      simp only [pyMinKey, Except.ok.injEq] at h
      obtain ⟨w, hmem, hle, hall⟩ := minKeyAux_spec rest k₀ v₀
      rcases hmem with ⟨hEq, hw⟩ | hmem
      · refine ⟨v₀, ?_, ?_⟩
        · rw [← h, hEq]; exact List.mem_cons_self _ _
        · intro kv hkv
          rcases List.mem_cons.mp hkv with hkv | hkv
          · cases hkv; exact le_refl _
          · have := hall kv hkv
            calc v₀ = w := by rw [hw]
              _ ≤ kv.2 := this
      · refine ⟨w, ?_, ?_⟩
        · rw [← h]; exact List.mem_cons_of_mem _ hmem
        · intro kv hkv
          rcases List.mem_cons.mp hkv with hkv | hkv
          · cases hkv; exact hle
          · exact hall kv hkv

theorem pyMinKey_ok_of_ne_nil (d : Dict Int) (h : d ≠ []) :
    ∃ lru, pyMinKey d = .ok lru := by
  match d, h with
  | (k₀, v₀) :: rest, _ => exact ⟨minKeyAux rest k₀ v₀, rfl⟩

theorem pyMinKey_mem_keys (d : Dict Int) (lru : String)
    (h : pyMinKey d = .ok lru) : lru ∈ dictKeys d := by
  obtain ⟨w, hmem, _⟩ := pyMinKey_spec d lru h
  exact List.mem_map_of_mem Prod.fst hmem

namespace AgentPool

theorem getAgentHit_spec (p : AgentPool) (key : String) (now : Int)
    (hWF : p.WF) (hc : (dictGet p.agents key).isSome = true) :
    ∃ a u, dictGet p.agents key = some a ∧ dictGet p.agent_usage key = some u ∧
      getAgentHit p key now =
        (.ok a, { p with
          agent_usage := dictSet p.agent_usage key (u + 1),
          agent_last_used := dictSet p.agent_last_used key now }) := by
  have hmemA : key ∈ dictKeys p.agents := (dictGet_isSome_iff_mem_keys _ _).mp hc
  have hmemU : key ∈ dictKeys p.agent_usage := (hWF.usageKeys key).mp hmemA
  have hu : (dictGet p.agent_usage key).isSome = true :=
    (dictGet_isSome_iff_mem_keys _ _).mpr hmemU
  obtain ⟨a, ha⟩ := Option.isSome_iff_exists.mp hc
  obtain ⟨u, huval⟩ := Option.isSome_iff_exists.mp hu
  exact ⟨a, u, ha, huval, by simp [getAgentHit, huval, ha]⟩

theorem getAgentHit_wf (p : AgentPool) (key : String) (now : Int)
    (hWF : p.WF) (hc : (dictGet p.agents key).isSome = true) :
    (getAgentHit p key now).2.WF := by
  obtain ⟨a, u, ha, hu, hEq⟩ := getAgentHit_spec p key now hWF hc
  rw [hEq]
  have hmemA : key ∈ dictKeys p.agents := (dictGet_isSome_iff_mem_keys _ _).mp hc
  have hcu : (dictGet p.agent_usage key).isSome = true := by simp [hu]
  have hcl : (dictGet p.agent_last_used key).isSome = true :=
    (dictGet_isSome_iff_mem_keys _ _).mpr ((hWF.lastKeys key).mp hmemA)
  constructor
  · exact hWF.nodupAgents
  · simpa [dictKeys_set_of_contains _ _ _ hcu] using hWF.nodupUsage
  · simpa [dictKeys_set_of_contains _ _ _ hcl] using hWF.nodupLast
  · intro k
    simpa [dictKeys_set_of_contains _ _ _ hcu] using hWF.usageKeys k
  · intro k
    simpa [dictKeys_set_of_contains _ _ _ hcl] using hWF.lastKeys k
  · exact hWF.sizeLe

theorem getAgentNew_wf (p : AgentPool) (key name : String) (now : Int)
    (hWF : p.WF) (hc : (dictGet p.agents key).isSome = false)
    (hlen : p.agents.length < p.pool_size) :
    (getAgentNew p key name now).2.WF := by
  have hmemA : key ∉ dictKeys p.agents := by
    intro hm
    rw [(dictGet_isSome_iff_mem_keys _ _).mpr hm] at hc
    cases hc
  have hcu : (dictGet p.agent_usage key).isSome = false := by
    rcases h : (dictGet p.agent_usage key).isSome with _ | _
    · rfl
    · exact absurd ((hWF.usageKeys key).mpr ((dictGet_isSome_iff_mem_keys _ _).mp h))
        hmemA
  have hcl : (dictGet p.agent_last_used key).isSome = false := by
    rcases h : (dictGet p.agent_last_used key).isSome with _ | _
    · rfl
    · exact absurd ((hWF.lastKeys key).mpr ((dictGet_isSome_iff_mem_keys _ _).mp h))
        hmemA
  constructor
  · exact nodup_dictKeys_set _ _ _ hWF.nodupAgents
  · exact nodup_dictKeys_set _ _ _ hWF.nodupUsage
  · exact nodup_dictKeys_set _ _ _ hWF.nodupLast
  · intro k
    simp only [getAgentNew, mem_dictKeys_set]
    exact or_congr_left (hWF.usageKeys k)
  · intro k
    simp only [getAgentNew, mem_dictKeys_set]
    exact or_congr_left (hWF.lastKeys k)
  · simp only [getAgentNew, length_dictSet_of_not_contains _ _ _ hc]
    omega

theorem getAgentEvict_spec (p : AgentPool) (key name : String) (now : Int)
    (hWF : p.WF) (hne : p.agent_last_used ≠ []) :
    ∃ lru w, pyMinKey p.agent_last_used = .ok lru ∧
      (lru, w) ∈ p.agent_last_used ∧ (∀ kv ∈ p.agent_last_used, w ≤ kv.2) ∧
      getAgentEvict p key name now =
        (.ok { model_name := name, system_prompt := get_system_prompt },
         { p with
           agents := dictSet (dictDel p.agents lru) key
             { model_name := name, system_prompt := get_system_prompt },
           agent_usage := dictSet (dictDel p.agent_usage lru) key 1,
           agent_last_used := dictSet (dictDel p.agent_last_used lru) key now }) := by
  obtain ⟨lru, hlru⟩ := pyMinKey_ok_of_ne_nil _ hne
  obtain ⟨w, hmem, hall⟩ := pyMinKey_spec _ _ hlru
  have hmemL : lru ∈ dictKeys p.agent_last_used := List.mem_map_of_mem Prod.fst hmem
  have hL : (dictGet p.agent_last_used lru).isSome = true :=
    (dictGet_isSome_iff_mem_keys _ _).mpr hmemL
  have hA : (dictGet p.agents lru).isSome = true :=
    (dictGet_isSome_iff_mem_keys _ _).mpr ((hWF.lastKeys lru).mpr hmemL)
  have hU : (dictGet p.agent_usage lru).isSome = true :=
    (dictGet_isSome_iff_mem_keys _ _).mpr
      ((hWF.usageKeys lru).mp ((hWF.lastKeys lru).mpr hmemL))
  obtain ⟨a₀, ha₀⟩ := Option.isSome_iff_exists.mp hA
  obtain ⟨u₀, hu₀⟩ := Option.isSome_iff_exists.mp hU
  obtain ⟨t₀, ht₀⟩ := Option.isSome_iff_exists.mp hL
  refine ⟨lru, w, hlru, hmem, hall, ?_⟩
  simp [getAgentEvict, hlru, pyDel, ha₀, hu₀, ht₀]

theorem getAgentEvict_wf (p : AgentPool) (key name : String) (now : Int)
    (hWF : p.WF) (hc : (dictGet p.agents key).isSome = false) :
    (getAgentEvict p key name now).2.WF := by
  rcases hL : p.agent_last_used with _ | ⟨kv₀, rest⟩
  · have : getAgentEvict p key name now = (.error ("ValueError: min() arg is an empty sequence"), p) := by
      simp [getAgentEvict, pyMinKey, hL]
    rw [this]
    exact hWF
  · have hne : p.agent_last_used ≠ [] := by simp [hL]
    obtain ⟨lru, w, hlru, hmem, hall, hEq⟩ := getAgentEvict_spec p key name now hWF hne
    rw [hEq]
    have hmemL : lru ∈ dictKeys p.agent_last_used := List.mem_map_of_mem Prod.fst hmem
    have hmemA : lru ∈ dictKeys p.agents := (hWF.lastKeys lru).mpr hmemL
    have hA : (dictGet p.agents lru).isSome = true :=
      (dictGet_isSome_iff_mem_keys _ _).mpr hmemA
    have hKeyNotA : key ∉ dictKeys p.agents := by
      intro hm
      rw [(dictGet_isSome_iff_mem_keys _ _).mpr hm] at hc
      cases hc
    have hKeyDelA : (dictGet (dictDel p.agents lru) key).isSome = false := by
      rcases h : (dictGet (dictDel p.agents lru) key).isSome with _ | _
      · rfl
      · have := (dictGet_isSome_iff_mem_keys _ _).mp h
        exact absurd ((mem_dictKeys_del _ _ _).mp this).1 hKeyNotA
  -- nodup goals
    constructor
    · exact nodup_dictKeys_set _ _ _ (nodup_dictKeys_del _ _ hWF.nodupAgents)
    · exact nodup_dictKeys_set _ _ _ (nodup_dictKeys_del _ _ hWF.nodupUsage)
    · exact nodup_dictKeys_set _ _ _ (nodup_dictKeys_del _ _ hWF.nodupLast)
    · intro k
      simp only [mem_dictKeys_set, mem_dictKeys_del]
      exact or_congr_left (and_congr_left (fun _ => hWF.usageKeys k))
    · intro k
      simp only [mem_dictKeys_set, mem_dictKeys_del]
      exact or_congr_left (and_congr_left (fun _ => hWF.lastKeys k))
    · simp only [length_dictSet_of_not_contains _ _ _ hKeyDelA]
      have hdel := length_dictDel_of_contains p.agents lru hWF.nodupAgents hA
      have := hWF.sizeLe
      omega

theorem get_agent_wf (st : Settings) (p : AgentPool) (now : Int)
    (model : Option String) (hWF : p.WF) :
    (get_agent st p now model).2.WF := by
  unfold get_agent
  rcases hv : validate_api_key st (resolveModelName st model) with e | u
  · exact hWF
  · by_cases hc : dictContains p.agents (agentKey st model) = true
    · simp only [hc, if_true]
      exact getAgentHit_wf p _ now hWF (by simpa [dictContains] using hc)
    · simp only [Bool.not_eq_true] at hc
      by_cases hlen : p.agents.length < p.pool_size
      · simp only [hc, hlen, if_true, Bool.false_eq_true, if_false]
        exact getAgentNew_wf p _ _ now hWF (by simpa [dictContains] using hc) hlen
      · simp only [hc, hlen, Bool.false_eq_true, if_false]
        exact getAgentEvict_wf p _ _ now hWF (by simpa [dictContains] using hc)

theorem cleanupAux_spec (ks : List String) (p : AgentPool)
    (hWF : p.WF) (hks : ∀ k ∈ ks, k ∈ dictKeys p.agent_last_used)
    (hnd : ks.Nodup) :
    (cleanupAux p ks).1 = .ok () ∧ (cleanupAux p ks).2.WF := by
  induction ks generalizing p with
  | nil => exact ⟨rfl, hWF⟩
  | cons k rest ih =>
      have hmemL : k ∈ dictKeys p.agent_last_used := hks k (List.mem_cons_self _ _)
      have hmemA : k ∈ dictKeys p.agents := (hWF.lastKeys k).mpr hmemL
      have hmemU : k ∈ dictKeys p.agent_usage := (hWF.usageKeys k).mp hmemA
      have hA := (dictGet_isSome_iff_mem_keys _ _).mpr hmemA
      have hU := (dictGet_isSome_iff_mem_keys _ _).mpr hmemU
      have hL := (dictGet_isSome_iff_mem_keys _ _).mpr hmemL
      obtain ⟨a₀, ha₀⟩ := Option.isSome_iff_exists.mp hA
      obtain ⟨u₀, hu₀⟩ := Option.isSome_iff_exists.mp hU
      obtain ⟨t₀, ht₀⟩ := Option.isSome_iff_exists.mp hL
      have hstep : cleanupAux p (k :: rest) =
          cleanupAux { p with agents := dictDel p.agents k, agent_usage := dictDel p.agent_usage k, agent_last_used := dictDel p.agent_last_used k } rest := by
        simp [cleanupAux, pyDel, ha₀, hu₀, ht₀]
      rw [hstep]
      simp only [List.nodup_cons] at hnd
      apply ih
      · constructor
        · exact nodup_dictKeys_del _ _ hWF.nodupAgents
        · exact nodup_dictKeys_del _ _ hWF.nodupUsage
        · exact nodup_dictKeys_del _ _ hWF.nodupLast
        · intro k'
          simp only [mem_dictKeys_del]
          exact and_congr_left (fun _ => hWF.usageKeys k')
        · intro k'
          simp only [mem_dictKeys_del]
          exact and_congr_left (fun _ => hWF.lastKeys k')
        · calc (dictDel p.agents k).length ≤ p.agents.length :=
            List.length_filter_le _ _
            _ ≤ p.pool_size := hWF.sizeLe
      · intro k' hk'
        simp only [mem_dictKeys_del]
        refine ⟨hks k' (List.mem_cons_of_mem _ hk'), ?_⟩
        intro hEq
        exact hnd.1 (hEq ▸ hk')
      · exact hnd.2

theorem cleanup_unused_agents_spec (p : AgentPool) (now max_idle_time : Int)
    (hWF : p.WF) :
    (p.cleanup_unused_agents now max_idle_time).1 = .ok () ∧
      (p.cleanup_unused_agents now max_idle_time).2.WF := by
  apply cleanupAux_spec
  · exact hWF
  · intro k hk
    have hsub : List.Sublist
        ((p.agent_last_used.filter
          (fun kv => decide (now - kv.2 > max_idle_time))).map Prod.fst)
        (p.agent_last_used.map Prod.fst) :=
      (List.filter_sublist _).map Prod.fst
    exact hsub.subset hk
  · have hsub : List.Sublist
        ((p.agent_last_used.filter
          (fun kv => decide (now - kv.2 > max_idle_time))).map Prod.fst)
        (p.agent_last_used.map Prod.fst) :=
      (List.filter_sublist _).map Prod.fst
    exact hWF.nodupLast.sublist hsub

end AgentPool

theorem poolOp_apply_wf (p : AgentPool) (op : PoolOp) (hWF : p.WF) :
    (PoolOp.apply p op).WF := by
  cases op with
  | get st now model => exact AgentPool.get_agent_wf st p now model hWF
  | cleanup now m => exact (AgentPool.cleanup_unused_agents_spec p now m hWF).2

theorem runPoolOps_wf (n : Nat) (ops : List PoolOp) : (runPoolOps n ops).WF := by
  suffices h : ∀ (p : AgentPool), p.WF → (ops.foldl PoolOp.apply p).WF by
    exact h (initPool n) (initPool_wf n)
  induction ops with
  | nil => intro p hp; exact hp
  | cons op rest ih =>
      intro p hp
      exact ih _ (poolOp_apply_wf p op hp)

theorem getAgentHit_pool_size (p : AgentPool) (key : String) (now : Int) :
    (AgentPool.getAgentHit p key now).2.pool_size = p.pool_size := by
  rcases hu : dictGet p.agent_usage key with _ | u
  · simp [AgentPool.getAgentHit, hu]
  · rcases ha : dictGet p.agents key with _ | a <;>
      simp [AgentPool.getAgentHit, hu, ha]

theorem getAgentEvict_pool_size (p : AgentPool) (key name : String) (now : Int) :
    (AgentPool.getAgentEvict p key name now).2.pool_size = p.pool_size := by
  rcases hm : pyMinKey p.agent_last_used with e | lru
  · simp [AgentPool.getAgentEvict, hm]
  · rcases h₁ : pyDel p.agents lru with e | agents'
    · simp [AgentPool.getAgentEvict, hm, h₁]
    · rcases h₂ : pyDel p.agent_usage lru with e | usage'
      · simp [AgentPool.getAgentEvict, hm, h₁, h₂]
      · rcases h₃ : pyDel p.agent_last_used lru with e | last' <;>
          simp [AgentPool.getAgentEvict, hm, h₁, h₂, h₃]

theorem cleanupAux_pool_size (ks : List String) (p : AgentPool) :
    (AgentPool.cleanupAux p ks).2.pool_size = p.pool_size := by
  induction ks generalizing p with
  | nil => rfl
  | cons k rest ih =>
      rcases h₁ : pyDel p.agents k with e | agents'
      · simp [AgentPool.cleanupAux, h₁]
      · rcases h₂ : pyDel p.agent_usage k with e | usage'
        · simp [AgentPool.cleanupAux, h₁, h₂]
        · rcases h₃ : pyDel p.agent_last_used k with e | last'
          · simp [AgentPool.cleanupAux, h₁, h₂, h₃]
          · simp only [AgentPool.cleanupAux, h₁, h₂, h₃]
            exact ih _

theorem poolOp_apply_pool_size (p : AgentPool) (op : PoolOp) :
    (PoolOp.apply p op).pool_size = p.pool_size := by
  cases op with
  | get st now model =>
      simp only [PoolOp.apply]
      unfold AgentPool.get_agent
      rcases hv : validate_api_key st (AgentPool.resolveModelName st model) with e | u
      · rfl
      · by_cases hc : dictContains p.agents (AgentPool.agentKey st model) = true
        · simp only [hc, if_true]
          exact getAgentHit_pool_size p _ now
        · simp only [Bool.not_eq_true] at hc
          by_cases hlen : p.agents.length < p.pool_size
          · simp [hc, hlen, AgentPool.getAgentNew]
          · simp only [hc, hlen, Bool.false_eq_true, if_false]
            exact getAgentEvict_pool_size p _ _ now
  | cleanup now m =>
      simp only [PoolOp.apply]
      unfold AgentPool.cleanup_unused_agents
      exact cleanupAux_pool_size _ p

theorem runPoolOps_pool_size (n : Nat) (ops : List PoolOp) :
    (runPoolOps n ops).pool_size = n := by
  suffices h : ∀ (p : AgentPool), (ops.foldl PoolOp.apply p).pool_size = p.pool_size by
    simpa [initPool] using h (initPool n)
  induction ops with
  | nil => intro p; rfl
  | cons op rest ih =>
      intro p
      rw [List.foldl_cons, ih, poolOp_apply_pool_size]

/-! ## Request/response schemas (`backend/app/schemas/agent.py`)

Only the fields read by the embedded handler code are carried; the optional
numeric tuning fields (`temperature`, `max_tokens`, ...) are never read by
`process_simple_conversation` and are omitted.  Float-valued
`processing_time` is embedded as an `Int` duration. -/

structure ConversationMessage where
  role : String
  content : String
  timestamp : Option String
deriving DecidableEq, Repr

structure ConversationRequest where
  messages : List ConversationMessage
  model : Option String
deriving DecidableEq, Repr

structure AgentResponse where
  response : String
  model_used : String
  tokens_used : Int
  processing_time : Int
  tool_calls : List String
  conversation_id : Option String
  metadata_message_count : Option Nat
deriving DecidableEq, Repr

/-- The result of `pydantic_ai` `agent.run(...)` (external): its `output`
text, and `usage()` which may be absent (falsy) and whose `total_tokens` may
itself be `None`. -/
structure RunResult where
  output : String
  usage : Option (Option Int)
deriving DecidableEq, Repr

/-- Embeds `tokens_used = result.usage().total_tokens or 0` guarded by
`if result.usage():`. -/
def tokensOf (usage : Option (Option Int)) : Int :=
  match usage with
  | some (some t) => if t = 0 then 0 else t
  | some none => 0
  | none => 0

/-! ## Simple agent handlers (`backend/app/core/agents/simple_agent.py`)

The joint state a handler call touches: the cache service and the agent
pool (the module-level singletons).  Each handler returns its outcome, the
post state, and the trace of externally visible steps it performed, in
order. -/

structure SysState where
  cacheService : CacheService
  pool : AgentPool
deriving Repr

/-- The externally visible steps of one handler call. -/
inductive FlowEvent where
  | cacheLookup (key : String)
  | cacheStore (key : String)
  | acquireAgent
  | invokeProvider
  | respond
deriving DecidableEq, Repr

/-- True for events that touch the response cache. -/
def FlowEvent.isCacheEvent : FlowEvent → Bool
  | .cacheLookup _ => true
  | .cacheStore _ => true
  | _ => false

/-- Embeds `request.model or "default"` (the `model_name` recorded in
responses and cache keys). -/
def modelNameOrDefault (model : Option String) : String :=
  match model with
  | some m => if m = "" then ("default") else m
  | none => ("default")

/-- Embeds `process_simple_conversation`.  `sanitize` stands for the pure
`sanitize_prompt` transformation of `app/utils/sanitize.py` (its text
transformations are irrelevant to the claims settled here, which hold for
every `sanitize`); `run` stands for the external provider call
`agent.run(...)`; `now` is the single observed clock instant.  An empty
message list makes `request.messages[-1]` raise `IndexError` inside the
`try`, which the handler re-signals as a processing error.  Note: the
function performs no cache lookup and no cache store; the cache component
of the state is returned untouched. -/
def process_simple_conversation (st : Settings) (sanitize : String → String)
    (run : Agent → String → Except String RunResult) (now : Int)
    (s : SysState) (req : ConversationRequest) :
    Except String AgentResponse × SysState × List FlowEvent :=
  match AgentPool.get_agent st s.pool now req.model with
  | (.error e, pool') => (.error e, ⟨s.cacheService, pool'⟩, [.acquireAgent])
  | (.ok agent, pool') =>
      match req.messages.getLast? with
      | none =>
          (.error ("Error processing conversation: IndexError: list index out of range"),
           ⟨s.cacheService, pool'⟩, [.acquireAgent])
      | some lastMsg =>
          let messages := (req.messages.dropLast).map
            (fun m => m.role ++ ": " ++ sanitize m.content)
          let current_prompt := sanitize lastMsg.content
          let full_prompt :=
            if messages ≠ [] then
              ("Previous conversation:\n") ++ String.intercalate ("\n") messages ++
                ("\n\nCurrent message: ") ++ current_prompt
            else current_prompt
          match run agent full_prompt with
          | .error e =>
              (.error (("Error processing conversation: ") ++ e),
               ⟨s.cacheService, pool'⟩, [.acquireAgent, .invokeProvider])
          | .ok result =>
              (.ok { response := result.output,
                     model_used := modelNameOrDefault req.model,
                     tokens_used := tokensOf result.usage,
                     processing_time := 0,
                     tool_calls := [],
                     conversation_id := none,
                     metadata_message_count := some req.messages.length },
               ⟨s.cacheService, pool'⟩,
               [.acquireAgent, .invokeProvider, .respond])

/-! ## JWT authentication (`backend/app/core/security/auth.py`)

`jose.jwt.encode` / `jose.jwt.decode` are external.  Modelled from the spec:
"on success issues a signed, time-limited token embedding the username as
subject.  Token verification checks signature and expiry"; a token is the
claim set plus the signing key and algorithm it was sealed with, and decode
succeeds exactly when key and algorithm match and the token is not expired
(`exp < now` fails, at the whole-second granularity the library stores
`exp` with).  Durations (`timedelta`, `ACCESS_TOKEN_EXPIRE_MINUTES`) are in
seconds. -/

structure JwtClaims where
  sub : Option String
  exp : Int
deriving DecidableEq, Repr

structure Jwt where
  claims : JwtClaims
  key : String
  alg : String
deriving DecidableEq, Repr

/-- Modelled from the spec: `jose.jwt.encode` seals the claims with the key
and algorithm. -/
def jwtEncode (claims : JwtClaims) (key alg : String) : Jwt :=
  { claims := claims, key := key, alg := alg }

/-- Modelled from the spec: `jose.jwt.decode` verifies the signature (key
and algorithm match) and the expiry (`exp < now` raises
`ExpiredSignatureError`, a `JWTError`). -/
def jwtDecode (tok : Jwt) (key alg : String) (now : Int) : Option JwtClaims :=
  if tok.key = key ∧ tok.alg = alg ∧ ¬ tok.claims.exp < now then some tok.claims
  else none

/-- The `data` dict passed to `create_access_token` (only the `sub` claim is
ever read back). -/
structure TokenPayload where
  sub : Option String
deriving DecidableEq, Repr

/-- Embeds `create_access_token`: `expire = now + expires_delta` when the
delta is truthy (a zero `timedelta` is falsy and falls back to the
configured default), else `now + ACCESS_TOKEN_EXPIRE_MINUTES` (in
seconds). -/
def create_access_token (st : Settings) (data : TokenPayload)
    (expires_delta : Option Int) (now : Int) : Jwt :=
  let expire :=
    match expires_delta with
    | some d => if d = 0 then now + st.ACCESS_TOKEN_EXPIRE_MINUTES * 60 else now + d
    | none => now + st.ACCESS_TOKEN_EXPIRE_MINUTES * 60
  jwtEncode { sub := data.sub, exp := expire } st.SECRET_KEY st.ALGORITHM

structure TokenData where
  username : Option String
deriving DecidableEq, Repr

/-- Embeds `verify_token`: decode, then require a string `sub` claim. -/
def verify_token (st : Settings) (tok : Jwt) (now : Int) : Option TokenData :=
  match jwtDecode tok st.SECRET_KEY st.ALGORITHM now with
  | none => none
  | some payload =>
      match payload.sub with
      | none => none
      | some username => some { username := some username }

/-! ## Model-name validation (`backend/app/utils/sanitize.py` and
`backend/app/api/v1/agent.py`) -/

/-- The allow-list character class `[a-zA-Z0-9\-_.]`. -/
def allowedChar (c : Char) : Bool :=
  (('a' ≤ c && c ≤ 'z') || ('A' ≤ c && c ≤ 'Z') || ('0' ≤ c && c ≤ '9')
    || c = '-' || c = '_' || c = '.')

/-- Embeds `bool(re.match(r"^[a-zA-Z0-9\-_.]+$", s))` with Python `re`
semantics: `$` matches at the end of the string or just before one trailing
newline, so the pattern accepts a nonempty all-allowed string optionally
followed by a single final `'\n'`. -/
def reMatchAllowList (s : String) : Bool :=
  match s.data.getLast? with
  | some c =>
      if c = '\n' then s.data.dropLast ≠ [] && s.data.dropLast.all allowedChar
      else s.data ≠ [] && s.data.all allowedChar
  | none => false

/-- Embeds `validate_model_name`. -/
def validate_model_name (model_name : String) : Bool :=
  if model_name = "" then false
  else reMatchAllowList model_name && model_name.length ≤ 100

/-- Embeds the guard in the `/agent/prompt` and `/agent/conversation`
handlers: `if request.model and not validate_model_name(request.model)`
raise HTTP 400.  A falsy model (absent or empty string) skips validation. -/
def handlerRejectsModel (model : Option String) : Bool :=
  match model with
  | none => false
  | some m => if m = "" then false else ! validate_model_name m

/-! ## Concrete values used to evaluate the embedded code -/

/-- A settings value with only the Gemini key configured. -/
def stGemini : Settings :=
  { DEFAULT_MODEL := "gemini-2.0-flash", DEFAULT_PROVIDER := "gemini",
    OPENAI_API_KEY := none, ANTHROPIC_API_KEY := none,
    GEMINI_API_KEY := some ("test-gemini-key"),
    SECRET_KEY := "0123456789abcdef0123456789abcdef", ALGORITHM := "HS256",
    ACCESS_TOKEN_EXPIRE_MINUTES := 30 }

/-- An empty memory cache with the default TTL of 3600 seconds. -/
def mcEmpty : MemoryCache := { cache := [], default_ttl := 3600 }

/-- A memory cache holding one expired and one live entry at instant 10. -/
def mcTwo : MemoryCache :=
  { cache := [("a", { value := "x", expires := 5 }),
              ("b", { value := "y", expires := 100 })],
    default_ttl := 3600 }

/-! ## Claim theorems -/

/-- C2, counterexample: the claim quantifies over every ttl `t`, but a stored
ttl of `0` falls back to the default TTL (`ttl = ttl or self.default_ttl`), so
after `set` at instant 0 with `ttl = 0` a lookup at instant `0` — which is at
(not before) `store time + t = 0` and should find the entry expired per the
claim — still returns the value. -/
theorem cache_ttl_zero_counterexample :
    ((MemoryCache.set mcEmpty 0 ("k") ("v") (some 0)).get 0 ("k")).1 = some ("v") ∧
      ((0 : Int) + 0 ≤ 0) := by
  exact ⟨by decide, by decide⟩

/-- C2 (amended): after `set(k, v, ttl)` at instant `s`, a lookup of `k` at
instant `T` returns `v` exactly when `T` is strictly before `s` plus the
effective ttl, and returns absent otherwise — where the effective ttl is the
passed ttl when that is truthy (nonzero), and the configured default TTL when
the ttl is omitted or `0`. -/
theorem cache_set_then_get (c : MemoryCache) (k v : String) (ttl : Option Int)
    (s T : Int) :
    ((MemoryCache.set c s k v ttl).get T k).1 =
      (if T < s + c.effectiveTtl ttl then some v else none) ∧
    c.effectiveTtl none = c.default_ttl := by
  constructor
  · unfold MemoryCache.set MemoryCache.get
    simp only [dictGet_set_self]
    by_cases h : T < s + c.effectiveTtl ttl
    · simp [h]
    · simp [h]
  · rfl

/-- C3: a lookup returns the stored value exactly when the key is present
with expiry strictly after the lookup instant; a present-but-expired entry is
deleted and the lookup returns absent; an absent key leaves the cache
untouched; entries under other keys are never modified. -/
theorem cache_get_characterization (c : MemoryCache) (now : Int) (k : String) :
    (∀ v, (c.get now k).1 = some v ↔
        ∃ e, dictGet c.cache k = some { value := v, expires := e } ∧ now < e) ∧
    (∀ item, dictGet c.cache k = some item → item.expires ≤ now →
        (c.get now k).1 = none ∧ dictGet (c.get now k).2.cache k = none) ∧
    (dictGet c.cache k = none → c.get now k = (none, c)) ∧
    (∀ k', k' ≠ k → dictGet (c.get now k).2.cache k' = dictGet c.cache k') ∧
    (c.get now k).2.default_ttl = c.default_ttl := by
  rcases hg : dictGet c.cache k with _ | item
  · have hEq : c.get now k = (none, c) := by
      unfold MemoryCache.get
      simp [hg]
    refine ⟨?_, ?_, ?_, ?_, ?_⟩
    · intro v
      rw [hEq]
      simp
    · intro item hitem
      cases hitem
    · intro _
      exact hEq
    · intro k' _
      rw [hEq]
    · rw [hEq]
  · obtain ⟨iv, ie⟩ := item
    by_cases hlt : now < ie
    · have hEq : c.get now k = (some iv, c) := by
        unfold MemoryCache.get
        simp [hg, hlt]
      refine ⟨?_, ?_, ?_, ?_, ?_⟩
      · intro v
        rw [hEq]
        constructor
        · intro hv
          simp only [Option.some.injEq] at hv
          exact ⟨ie, by rw [hv], hlt⟩
        · rintro ⟨e, hsome, hne⟩
          simp only [Option.some.injEq, CacheItem.mk.injEq] at hsome
          simp [hsome.1]
      · intro item hitem hle
        cases hitem
        simp only [] at hle
        omega
      · intro habs
        cases habs
      · intro k' _
        rw [hEq]
      · rw [hEq]
    · have hEq : c.get now k = (none, { c with cache := dictDel c.cache k }) := by
        unfold MemoryCache.get
        simp [hg, hlt]
      refine ⟨?_, ?_, ?_, ?_, ?_⟩
      · intro v
        rw [hEq]
        constructor
        · intro hv
          cases hv
        · rintro ⟨e, hsome, hne⟩
          simp only [Option.some.injEq, CacheItem.mk.injEq] at hsome
          omega
      · intro item hitem _
        rw [hEq]
        exact ⟨rfl, dictGet_del_self c.cache k⟩
      · intro habs
        cases habs
      · intro k' hk'
        rw [hEq]
        exact dictGet_del_ne c.cache k k' hk'
      · rw [hEq]

/-- C3, witness: at instant 10 a lookup of the expired entry `"a"` of
`mcTwo` returns absent and deletes it, and leaves the live entry `"b"`
untouched. -/
theorem cache_get_characterization_witness :
    ((mcTwo.get 10 ("a")).1 = none ∧
      dictGet (mcTwo.get 10 ("a")).2.cache ("a") = none) ∧
    dictGet (mcTwo.get 10 ("a")).2.cache ("b") =
      some { value := "y", expires := 100 } := by
  refine ⟨(cache_get_characterization mcTwo 10 ("a")).2.1
    { value := "x", expires := 5 } (by decide) (by decide), ?_⟩
  rw [(cache_get_characterization mcTwo 10 ("a")).2.2.2.1 ("b") (by decide)]
  decide

/-- C8: a token created with a strictly negative expiration delta carries an
`exp` strictly before its creation instant, so verification at any instant at
or after creation fails (the token is already expired). -/
theorem negative_expiry_token_fails (st : Settings) (data : TokenPayload)
    (d tCreate tVerify : Int) (hd : d < 0) (ht : tCreate ≤ tVerify) :
    verify_token st (create_access_token st data (some d) tCreate) tVerify = none := by
  unfold verify_token create_access_token jwtEncode jwtDecode
  have hd0 : ¬ d = 0 := by omega
  have hexp : tCreate + d < tVerify := by omega
  simp [hd0, hexp]

/-- C8, witness: a token for `"admin"` created at instant 100 with delta
`-60` fails verification at instant 100. -/
theorem negative_expiry_token_fails_witness :
    verify_token stGemini
      (create_access_token stGemini { sub := some ("admin") } (some (-60)) 100)
      100 = none :=
  negative_expiry_token_fails stGemini { sub := some ("admin") } (-60) 100 100
    (by decide) (by decide)

/-- C9: with the service disabled, prompt lookup returns absent without
touching the cache and prompt store is a no-op, while `clear_cache` still
empties the map and `cleanup_expired_entries` still removes exactly the
entries with expiry at or before the current instant — both exactly as in
the enabled state. -/
theorem disabled_cache_semantics (digest : String → String → String)
    (s : CacheService) (now : Int) (p m r : String) (ttl : Option Int)
    (hdis : s.enabled = false) (hnd : (dictKeys s.cache.cache).Nodup) :
    CacheService.get_prompt_response digest s now p m = (none, s) ∧
    CacheService.cache_prompt_response digest s now p m r ttl = s ∧
    (CacheService.clear_cache s).cache.cache = [] ∧
    (CacheService.clear_cache s).cache =
      (CacheService.clear_cache { s with enabled := true }).cache ∧
    (∀ k, dictGet (CacheService.cleanup_expired_entries s now).cache.cache k =
        match dictGet s.cache.cache k with
        | some item => if item.expires ≤ now then none else some item
        | none => none) ∧
    (CacheService.cleanup_expired_entries s now).cache =
      (CacheService.cleanup_expired_entries { s with enabled := true } now).cache := by
  refine ⟨?_, ?_, rfl, rfl, ?_, rfl⟩
  · unfold CacheService.get_prompt_response
    simp [hdis]
  · unfold CacheService.cache_prompt_response
    simp [hdis]
  · intro k
    exact cleanup_expired_get s.cache now k hnd

/-- A disabled cache service holding `mcTwo`. -/
def svcDisabled : CacheService := { cache := mcTwo, enabled := false }

/-- C9, witness: on the disabled service over `mcTwo` at instant 10, lookup
is a no-op returning absent, and the sweep removes the expired `"a"` but
keeps the live `"b"`. -/
theorem disabled_cache_semantics_witness :
    CacheService.get_prompt_response (fun a b => a ++ b) svcDisabled 10 ("p") ("m") =
      (none, svcDisabled) ∧
    dictGet (CacheService.cleanup_expired_entries svcDisabled 10).cache.cache ("a") =
      none ∧
    dictGet (CacheService.cleanup_expired_entries svcDisabled 10).cache.cache ("b") =
      some { value := "y", expires := 100 } := by
  have h := disabled_cache_semantics (fun a b => a ++ b) svcDisabled 10 ("p") ("m")
    ("resp") none (by decide) (by decide)
  refine ⟨h.1, ?_, ?_⟩
  · rw [h.2.2.2.2.1 ("a")]
    decide
  · rw [h.2.2.2.2.1 ("b")]
    decide

theorem string_data_nil_iff (s : String) : s.data = [] ↔ s = "" := by
  constructor
  · intro h
    cases s with
    | mk data =>
        cases h
        rfl
  · intro h
    rw [h]

/-- C6, counterexample: the handler accepts `"gpt-4\n"` although it contains
a newline, a character outside the allow-list (Python `$` also matches just
before one trailing newline); and it accepts the empty model name, which the
claim says is rejected (the guard `if request.model and ...` skips falsy
models). -/
theorem model_name_rejection_counterexample :
    handlerRejectsModel (some ("gpt-4\n")) = false ∧
    (('\n' ∈ ("gpt-4\n").data) ∧ allowedChar '\n' = false) ∧
    handlerRejectsModel (some ("")) = false := by
  exact ⟨by decide, ⟨by decide, by decide⟩, by decide⟩

/-- C6 (amended): the handler returns 400 exactly for the supplied model
names that are nonempty and fail `validate_model_name`; for a name without a
trailing newline that means some character outside
alphanumeric/hyphen/underscore/dot or length over 100, while a name ending in
one newline is accepted whenever what precedes the newline is nonempty,
all-allowed, and the total length is at most 100 (Python `$` matches before a
final newline); the empty name is never rejected; `"invalid/model/name"` is
rejected. -/
theorem model_name_rejection_characterization :
    (∀ m : String, m.data.getLast? ≠ some '\n' →
        (handlerRejectsModel (some m) = true ↔
          m ≠ "" ∧ (m.data.all allowedChar = false ∨ 100 < m.length))) ∧
    (∀ m : String, m.data.getLast? = some '\n' →
        (handlerRejectsModel (some m) = true ↔
          ¬ (m.data.dropLast ≠ [] ∧ m.data.dropLast.all allowedChar = true ∧
             m.length ≤ 100))) ∧
    handlerRejectsModel (some ("invalid/model/name")) = true := by
  refine ⟨?_, ?_, by decide⟩
  · intro m hlast
    by_cases hm : m = ""
    · subst hm
      simp [handlerRejectsModel]
    · have hne : m.data ≠ [] := fun h => hm ((string_data_nil_iff m).mp h)
      rcases hlast' : m.data.getLast? with _ | c
      · exact absurd (List.getLast?_eq_none_iff.mp hlast') hne
      · have hc : ¬ c = '\n' := by
          intro h
          exact hlast (h ▸ hlast')
        unfold handlerRejectsModel validate_model_name reMatchAllowList
        simp only [hm, if_neg hm, hlast', hc, if_false, if_neg hc]
        by_cases h3 : m.length ≤ 100 <;>
          rcases hb : m.data.all allowedChar with _ | _ <;>
            (simp [h3, hb, hne, hm, not_le]; try omega)
  · intro m hlast
    have hne : m.data ≠ [] := by
      intro h
      rw [h] at hlast
      simp [List.getLast?] at hlast
    have hm : ¬ m = "" := fun h => hne ((string_data_nil_iff m).mpr h)
    unfold handlerRejectsModel validate_model_name reMatchAllowList
    simp only [hm, if_neg hm, hlast, if_pos rfl]
    by_cases h1 : m.data.dropLast = [] <;> by_cases h3 : m.length ≤ 100 <;>
      rcases hb : m.data.dropLast.all allowedChar with _ | _ <;>
        simp [h1, h3, hb, not_le]

/-- C6, witness: `"model with spaces"` (no trailing newline, contains spaces)
is rejected with 400. -/
theorem model_name_rejection_witness :
    handlerRejectsModel (some ("model with spaces")) = true :=
  (model_name_rejection_characterization.1 ("model with spaces") (by decide)).mpr
    (by decide)

/-- C1: along every sequence of `get_agent` / `cleanup_unused_agents` calls
from an empty pool of capacity `n`, the agents map holds at most `n` entries,
and its keys are pairwise distinct (at most one handle per normalized model
key). -/
theorem pool_capacity_invariant (n : Nat) (ops : List PoolOp) :
    (runPoolOps n ops).agents.length ≤ n ∧
      (dictKeys (runPoolOps n ops).agents).Nodup := by
  have hWF := runPoolOps_wf n ops
  have hsz := runPoolOps_pool_size n ops
  exact ⟨le_of_le_of_eq hWF.sizeLe hsz, hWF.nodupAgents⟩

/-- C10: after every sequence of pool calls (raising or not), the three maps
`agents`, `agent_usage`, `agent_last_used` have the same key set, each with
pairwise distinct keys — every pooled handle has exactly one usage count and
one last-used timestamp and vice versa. -/
theorem pool_maps_key_sync (n : Nat) (ops : List PoolOp) :
    (∀ k, k ∈ dictKeys (runPoolOps n ops).agents ↔
        k ∈ dictKeys (runPoolOps n ops).agent_usage) ∧
    (∀ k, k ∈ dictKeys (runPoolOps n ops).agents ↔
        k ∈ dictKeys (runPoolOps n ops).agent_last_used) ∧
    (dictKeys (runPoolOps n ops).agents).Nodup ∧
    (dictKeys (runPoolOps n ops).agent_usage).Nodup ∧
    (dictKeys (runPoolOps n ops).agent_last_used).Nodup := by
  have hWF := runPoolOps_wf n ops
  exact ⟨hWF.usageKeys, hWF.lastKeys, hWF.nodupAgents, hWF.nodupUsage, hWF.nodupLast⟩

/-- C10, witness: after one `get_agent` call on an empty pool of capacity 2,
the requested key is in all three maps. -/
theorem pool_maps_key_sync_witness :
    ("agent_google-gla:gemini-2.0-flash") ∈
        dictKeys (runPoolOps 2 [PoolOp.get stGemini 0 (some ("gemini-2.0-flash"))]).agent_usage ∧
    ("agent_google-gla:gemini-2.0-flash") ∈
        dictKeys (runPoolOps 2 [PoolOp.get stGemini 0 (some ("gemini-2.0-flash"))]).agent_last_used := by
  refine ⟨((pool_maps_key_sync 2 [PoolOp.get stGemini 0 (some ("gemini-2.0-flash"))]).1
      ("agent_google-gla:gemini-2.0-flash")).mp (by decide),
    ((pool_maps_key_sync 2 [PoolOp.get stGemini 0 (some ("gemini-2.0-flash"))]).2.1
      ("agent_google-gla:gemini-2.0-flash")).mp (by decide)⟩

/-- C4, counterexample: with capacity 0 the empty pool is full and the
requested key is absent, yet `get_agent` raises `ValueError` from
`min(...)` over the empty timestamp map instead of evicting an entry and
inserting the new handle. -/
theorem evict_empty_pool_counterexample :
    AgentPool.get_agent stGemini (initPool 0) 0 (some ("gemini-2.0-flash")) =
      (.error ("ValueError: min() arg is an empty sequence"), initPool 0) ∧
    (initPool 0).agents.length = (initPool 0).pool_size ∧
    dictContains (initPool 0).agents
      (AgentPool.agentKey stGemini (some ("gemini-2.0-flash"))) = false := by
  exact ⟨rfl, rfl, rfl⟩

/-- C4 (amended): on a well-formed pool of capacity at least 1 that is
exactly full, with the requested key absent and the model passing API-key
validation, `get_agent` removes an entry whose last-used timestamp is
minimal, inserts a fresh handle for the requested key with usage count 1,
returns that handle, and leaves the pool at exactly `pool_size` entries. -/
theorem evict_lru_on_full_pool (st : Settings) (p : AgentPool) (now : Int)
    (model : Option String) (hWF : p.WF) (hpos : 1 ≤ p.pool_size)
    (hfull : p.agents.length = p.pool_size)
    (habs : dictContains p.agents (AgentPool.agentKey st model) = false)
    (hok : validate_api_key st (AgentPool.resolveModelName st model) = .ok ()) :
    ∃ lru w a,
      (lru, w) ∈ p.agent_last_used ∧
      (∀ kv ∈ p.agent_last_used, w ≤ kv.2) ∧
      (AgentPool.get_agent st p now model).1 = .ok a ∧
      a.model_name = AgentPool.resolveModelName st model ∧
      dictGet (AgentPool.get_agent st p now model).2.agents
        (AgentPool.agentKey st model) = some a ∧
      dictGet (AgentPool.get_agent st p now model).2.agent_usage
        (AgentPool.agentKey st model) = some 1 ∧
      dictGet (AgentPool.get_agent st p now model).2.agents lru = none ∧
      (AgentPool.get_agent st p now model).2.agents.length = p.pool_size := by
  have hlen : ¬ p.agents.length < p.pool_size := by omega
  have hAne : p.agents ≠ [] := by
    intro h
    rw [h] at hfull
    simp at hfull
    omega
  obtain ⟨kv₀, hkv₀⟩ := List.exists_mem_of_ne_nil _ hAne
  have hk₀ : kv₀.1 ∈ dictKeys p.agents := List.mem_map_of_mem Prod.fst hkv₀
  have hLne : p.agent_last_used ≠ [] := by
    intro h
    have hmem := (hWF.lastKeys kv₀.1).mp hk₀
    rw [h] at hmem
    simp [dictKeys] at hmem
  obtain ⟨lru, w, hlru, hmem, hall, hEq⟩ :=
    AgentPool.getAgentEvict_spec p (AgentPool.agentKey st model)
      (AgentPool.resolveModelName st model) now hWF hLne
  have hMain : AgentPool.get_agent st p now model =
      AgentPool.getAgentEvict p (AgentPool.agentKey st model)
        (AgentPool.resolveModelName st model) now := by
    unfold AgentPool.get_agent
    rw [hok]
    simp [habs, hlen]
  have habs' : (dictGet p.agents (AgentPool.agentKey st model)).isSome = false := by
    simpa [dictContains] using habs
  have hlruMem : lru ∈ dictKeys p.agents :=
    (hWF.lastKeys lru).mpr (List.mem_map_of_mem Prod.fst hmem)
  have hlruA : (dictGet p.agents lru).isSome = true :=
    (dictGet_isSome_iff_mem_keys _ _).mpr hlruMem
  have hne : lru ≠ AgentPool.agentKey st model := by
    intro h
    have hsome : (dictGet p.agents (AgentPool.agentKey st model)).isSome = true :=
      (dictGet_isSome_iff_mem_keys _ _).mpr (h ▸ hlruMem)
    rw [hsome] at habs'
    cases habs'
  have hKeyDel : (dictGet (dictDel p.agents lru) (AgentPool.agentKey st model)).isSome
      = false := by
    rw [dictGet_del_ne _ _ _ (fun h => hne h.symm)]
    exact habs'
  refine ⟨lru, w, (⟨AgentPool.resolveModelName st model, get_system_prompt⟩ : Agent),
    hmem, hall, ?_, rfl, ?_, ?_, ?_, ?_⟩
  · rw [hMain, hEq]
  · rw [hMain, hEq]
    exact dictGet_set_self _ _ _
  · rw [hMain, hEq]
    exact dictGet_set_self _ _ _
  · rw [hMain, hEq]
    simp only []
    rw [dictGet_set_ne _ _ _ _ hne]
    exact dictGet_del_self _ _
  · rw [hMain, hEq]
    simp only []
    rw [length_dictSet_of_not_contains _ _ _ hKeyDel]
    have hdel := length_dictDel_of_contains p.agents lru hWF.nodupAgents hlruA
    omega

/-- A full pool of capacity 1 holding one OpenAI-model handle. -/
def poolOne : AgentPool :=
  { pool_size := 1,
    agents := [("agent_openai:gpt-4",
      { model_name := "openai:gpt-4", system_prompt := get_system_prompt })],
    agent_usage := [("agent_openai:gpt-4", 3)],
    agent_last_used := [("agent_openai:gpt-4", 5)] }

/-- C4, witness: requesting a Gemini model against the full `poolOne` evicts
its single (hence minimal) entry and installs the new handle. -/
theorem evict_lru_on_full_pool_witness :
    ∃ lru w a,
      (lru, w) ∈ poolOne.agent_last_used ∧
      (∀ kv ∈ poolOne.agent_last_used, w ≤ kv.2) ∧
      (AgentPool.get_agent stGemini poolOne 9 (some ("gemini-2.0-flash"))).1 = .ok a ∧
      a.model_name = AgentPool.resolveModelName stGemini (some ("gemini-2.0-flash")) ∧
      dictGet (AgentPool.get_agent stGemini poolOne 9 (some ("gemini-2.0-flash"))).2.agents
        (AgentPool.agentKey stGemini (some ("gemini-2.0-flash"))) = some a ∧
      dictGet (AgentPool.get_agent stGemini poolOne 9 (some ("gemini-2.0-flash"))).2.agent_usage
        (AgentPool.agentKey stGemini (some ("gemini-2.0-flash"))) = some 1 ∧
      dictGet (AgentPool.get_agent stGemini poolOne 9 (some ("gemini-2.0-flash"))).2.agents lru = none ∧
      (AgentPool.get_agent stGemini poolOne 9 (some ("gemini-2.0-flash"))).2.agents.length =
        poolOne.pool_size :=
  evict_lru_on_full_pool stGemini poolOne 9 (some ("gemini-2.0-flash"))
    (by constructor <;> simp [poolOne, dictKeys]) (by decide) (by decide)
    (by decide) rfl

/-- C7, counterexample: with capacity 0 and a configured API key, validation
succeeds yet `get_agent` still raises — from the eviction scan inside the
lock, not from the pre-lock configuration check. -/
theorem get_agent_error_beyond_validation_counterexample :
    validate_api_key stGemini
      (AgentPool.resolveModelName stGemini (some ("gemini-2.0-flash"))) = .ok () ∧
    (AgentPool.get_agent stGemini (initPool 0) 0 (some ("gemini-2.0-flash"))).1 =
      .error ("ValueError: min() arg is an empty sequence") := by
  exact ⟨rfl, rfl⟩

/-- C7 (amended): on a well-formed pool, whenever `get_agent` raises the
three maps are exactly as before the call; and when the capacity is at least
1, it raises exactly when the pre-lock `validate_api_key` check raises (for
capacity 0 the eviction scan of the empty full pool also raises). -/
theorem get_agent_error_atomicity (st : Settings) (p : AgentPool) (now : Int)
    (model : Option String) (hWF : p.WF) :
    (∀ e, (AgentPool.get_agent st p now model).1 = .error e →
        (AgentPool.get_agent st p now model).2 = p) ∧
    (1 ≤ p.pool_size →
      ((∃ e, (AgentPool.get_agent st p now model).1 = .error e) ↔
        (∃ e, validate_api_key st (AgentPool.resolveModelName st model) = .error e))) := by
  rcases hv : validate_api_key st (AgentPool.resolveModelName st model) with e₀ | u
  · have hMain : AgentPool.get_agent st p now model = (.error e₀, p) := by
      unfold AgentPool.get_agent
      rw [hv]
    rw [hMain]
    exact ⟨fun _ _ => rfl, fun _ => ⟨fun _ => ⟨e₀, rfl⟩, fun _ => ⟨e₀, by simp⟩⟩⟩
  · cases u
    by_cases hc : dictContains p.agents (AgentPool.agentKey st model) = true
    · obtain ⟨a, u', ha, hu, hHitEq⟩ := AgentPool.getAgentHit_spec p
        (AgentPool.agentKey st model) now hWF (by simpa [dictContains] using hc)
      have hMain : AgentPool.get_agent st p now model =
          AgentPool.getAgentHit p (AgentPool.agentKey st model) now := by
        unfold AgentPool.get_agent
        rw [hv]
        simp [hc]
      rw [hMain, hHitEq]
      constructor
      · intro e h
        exact Except.noConfusion h
      · intro _
        constructor
        · rintro ⟨e, h⟩
          exact Except.noConfusion h
        · rintro ⟨e, h⟩
          exact Except.noConfusion h
    · simp only [Bool.not_eq_true] at hc
      by_cases hlen : p.agents.length < p.pool_size
      · have hMain : AgentPool.get_agent st p now model =
            AgentPool.getAgentNew p (AgentPool.agentKey st model)
              (AgentPool.resolveModelName st model) now := by
          unfold AgentPool.get_agent
          rw [hv]
          simp [hc, hlen]
        rw [hMain]
        constructor
        · intro e h
          exact Except.noConfusion h
        · intro _
          constructor
          · rintro ⟨e, h⟩
            exact Except.noConfusion h
          · rintro ⟨e, h⟩
            exact Except.noConfusion h
      · have hMain : AgentPool.get_agent st p now model =
            AgentPool.getAgentEvict p (AgentPool.agentKey st model)
              (AgentPool.resolveModelName st model) now := by
          unfold AgentPool.get_agent
          rw [hv]
          simp [hc, hlen]
        rcases hL : p.agent_last_used with _ | ⟨kv₀, rest⟩
        · have hEvict : AgentPool.getAgentEvict p (AgentPool.agentKey st model)
              (AgentPool.resolveModelName st model) now =
              (.error ("ValueError: min() arg is an empty sequence"), p) := by
            unfold AgentPool.getAgentEvict
            rw [hL]
            rfl
          rw [hMain, hEvict]
          constructor
          · intro _ _
            rfl
          · intro hpos
            exfalso
            have hAne : p.agents ≠ [] := by
              intro h
              have := hWF.sizeLe
              rw [h] at hlen
              simp at hlen
              omega
            obtain ⟨kv₁, hkv₁⟩ := List.exists_mem_of_ne_nil _ hAne
            have hmem := (hWF.lastKeys kv₁.1).mp (List.mem_map_of_mem Prod.fst hkv₁)
            rw [hL] at hmem
            simp [dictKeys] at hmem
        · have hLne : p.agent_last_used ≠ [] := by
            rw [hL]
            simp
          obtain ⟨lru, w, hlru, hmem, hall, hEq⟩ :=
            AgentPool.getAgentEvict_spec p (AgentPool.agentKey st model)
              (AgentPool.resolveModelName st model) now hWF hLne
          rw [hMain, hEq]
          constructor
          · intro e h
            exact Except.noConfusion h
          · intro _
            constructor
            · rintro ⟨e, h⟩
              exact Except.noConfusion h
            · rintro ⟨e, h⟩
              exact Except.noConfusion h

/-- C7, witness: a request for a Claude model with no Anthropic key
configured raises from the pre-lock validation and leaves the pool maps
unchanged. -/
theorem get_agent_error_atomicity_witness :
    (AgentPool.get_agent stGemini (initPool 1) 0 (some ("claude-3"))).2 = initPool 1 ∧
    (∃ e, (AgentPool.get_agent stGemini (initPool 1) 0 (some ("claude-3"))).1 =
      .error e) := by
  have h := get_agent_error_atomicity stGemini (initPool 1) 0 (some ("claude-3"))
    (initPool_wf 1)
  exact ⟨h.1 ("Anthropic API key not configured") rfl,
    (h.2 (by decide)).mpr ⟨("Anthropic API key not configured"), rfl⟩⟩

/-- A conversation request with one user message. -/
def convReqEx : ConversationRequest :=
  { messages := [{ role := "user", content := "Hello", timestamp := none }],
    model := some ("gemini-2.0-flash") }

/-- A provider stub returning a fixed successful result. -/
def runStub : Agent → String → Except String RunResult :=
  fun _ _ => .ok { output := "hi there", usage := none }

/-- An enabled cache service holding `mcTwo`, next to an empty pool of
capacity 1. -/
def sysEx : SysState :=
  { cacheService := { cache := mcTwo, enabled := true }, pool := initPool 1 }

/-- C5, counterexample: a concrete conversation request produces exactly the
trace acquire-agent, invoke-provider, respond — no cache lookup happens
before the agent is acquired, the provider is invoked without the cache
being consulted even though the cache is enabled and nonempty, nothing is
stored, and the cache state comes back unchanged; this contradicts the
claimed `Validate → CacheCheck → {hit: respond} | {miss: ... StoreCache}`
flow for conversation requests. -/
theorem conversation_claim_counterexample :
    (process_simple_conversation stGemini (fun s => s) runStub 0 sysEx convReqEx).2.2 =
      [FlowEvent.acquireAgent, FlowEvent.invokeProvider, FlowEvent.respond] ∧
    (process_simple_conversation stGemini (fun s => s) runStub 0 sysEx convReqEx).2.1.cacheService =
      sysEx.cacheService := by
  exact ⟨rfl, rfl⟩

/-- C5 (amended): every conversation request, for every settings value,
sanitizer, provider behaviour, clock and starting state, first acquires a
pooled agent (the trace starts with the acquire step), performs no cache
lookup and no cache store anywhere in its trace, and returns the cache
state unchanged; only prompt requests use the response cache. -/
theorem conversation_never_uses_cache (st : Settings) (sanitize : String → String)
    (run : Agent → String → Except String RunResult) (now : Int)
    (s : SysState) (req : ConversationRequest) :
    (process_simple_conversation st sanitize run now s req).2.1.cacheService =
      s.cacheService ∧
    ((process_simple_conversation st sanitize run now s req).2.2.all
      (fun e => ! e.isCacheEvent)) = true ∧
    (process_simple_conversation st sanitize run now s req).2.2.head? =
      some FlowEvent.acquireAgent := by
  unfold process_simple_conversation
  split
  · exact ⟨rfl, rfl, rfl⟩
  · split
    · exact ⟨rfl, rfl, rfl⟩
    · dsimp only
      split
      · exact ⟨rfl, rfl, rfl⟩
      · exact ⟨rfl, rfl, rfl⟩

end Mnemosine
